/-
  Verification of the point-cloud export pipeline
  (scripts/PointCloudExport.py of BaseMeshGenerationTool).

  The Python source is shallowly embedded over the real numbers.
  Fallible operations (Python exceptions: ZeroDivisionError, IndexError,
  ValueError on min of an empty list) are modelled with Option: `none`
  means the corresponding Python call raises.
-/
import Mathlib

namespace PointCloudExport

/-- A 3-component vector, mirroring `maya.api.OpenMaya.MVector`. -/
structure Vec3 where
  x : ℝ
  y : ℝ
  z : ℝ

/-- Componentwise vector subtraction (`MVector.__sub__`). -/
def Vec3.sub (u v : Vec3) : Vec3 := ⟨u.x - v.x, u.y - v.y, u.z - v.z⟩

/-- Dot product (`MVector * MVector` in the Maya API). -/
def Vec3.dot (u v : Vec3) : ℝ := u.x * v.x + u.y * v.y + u.z * v.z

/-- Scalar multiplication (`MVector * float`). -/
def Vec3.smul (c : ℝ) (v : Vec3) : Vec3 := ⟨c * v.x, c * v.y, c * v.z⟩

/-- Euclidean length (`MVector.length()`). -/
noncomputable def Vec3.length (v : Vec3) : ℝ := Real.sqrt (Vec3.dot v v)

/-- Python's `math.copysign x y`: magnitude of `x` with the sign of `y`
(a real number `y = 0` carries the positive sign). -/
noncomputable def copysign (x y : ℝ) : ℝ := if y < 0 then -|x| else |x|

/-- `PointCloudExporter.smin` (source lines 221-242): smooth minimum of a
list of values.  `min(_values)` raises on an empty list, and `log(res)/_k`
raises ZeroDivisionError when `_k = 0`; both are modelled as `none`. -/
noncomputable def smin (k : ℝ) (values : List ℝ) : Option ℝ :=
  match values with
  | [] => none
  | v :: vs =>
    if k = 0 then none
    else
      let minV := vs.foldl min v
      let res := ((v :: vs).map fun value => Real.exp (-k * value)).sum
      some (copysign (Real.log res / k) minV)

/-- `PointCloudExporter.sdCapsule` (source lines 187-219): tapered-capsule
signed distance.  The division `(pa * ba) / (ba * ba)` raises
ZeroDivisionError when the endpoints coincide (`ba * ba = 0`), modelled as
`none`.  The two sequential clamp assignments on `h` are kept as written. -/
noncomputable def sdCapsule (pos a : Vec3) (r1 : ℝ) (b : Vec3) (r2 : ℝ) : Option ℝ :=
  let pa := Vec3.sub pos a
  let ba := Vec3.sub b a
  if Vec3.dot ba ba = 0 then none
  else
    let h0 := Vec3.dot pa ba / Vec3.dot ba ba
    let h1 := if 1 < h0 then 1 else h0
    let h := if h1 < 0 then 0 else h1
    let bah := Vec3.smul h ba
    some (Vec3.length (Vec3.sub pa bah) - r1 - h * (r2 - r1))

/-- One 8-value group `[parent x, y, z, radius, child x, y, z, radius]` of
the flat line-segments list. -/
structure Seg8 (α : Type) where
  px : α
  py : α
  pz : α
  pr : α
  cx : α
  cy : α
  cz : α
  cr : α
deriving DecidableEq

/-- `zip(*[iter(_sdCapsuleData)] * 8)` (source lines 123 and 181): regroup a
flat list into consecutive groups of eight, silently dropping a trailing
remainder of fewer than eight values. -/
def chunk8 {α : Type} : List α → List (Seg8 α)
  | p1 :: p2 :: p3 :: p4 :: c1 :: c2 :: c3 :: c4 :: rest =>
      ⟨p1, p2, p3, p4, c1, c2, c3, c4⟩ :: chunk8 rest
  | _ => []

/-- `PointCloudExporter.calculateSD` (source lines 168-185): signed distance
at a position, the smooth minimum of the per-capsule distances.  An
exception in any `sdCapsule` call (or in `smin`) propagates. -/
noncomputable def calculateSD (pos : Vec3) (data : List ℝ) (k : ℝ) : Option ℝ := do
  let sDistances ← (chunk8 data).mapM fun s =>
    sdCapsule pos ⟨s.px, s.py, s.pz⟩ s.pr ⟨s.cx, s.cy, s.cz⟩ s.cr
  smin k sDistances

/-- The unrounded per-axis extrema of `findBoundingBox` (source lines
123-132): per 8-group the child-endpoint values `(x-r, x+r, y-r, y+r,
z-r, z+r)`, plus the same values for the leading four entries of the flat
list (the first parent), reduced by per-column min (even positions) and
max (odd positions).  Accessing `_sdCapsuleData[0] .. [3]` raises
IndexError when the list has fewer than four values, and for lists of
four to seven values (no full 8-group, so `xyz` holds a single tuple) the
Python 2 transpose `map(tuple, map(None, *xyz))` at line 130 unpacks that
lone tuple into bare floats and `tuple(float)` raises TypeError; both
error paths are modelled as `none`. -/
noncomputable def xyzExtrema (data : List ℝ) : Option (ℝ × ℝ × ℝ × ℝ × ℝ × ℝ) :=
  match data with
  | d0 :: d1 :: d2 :: d3 :: _ =>
      let cs := chunk8 data
      if cs = [] then none
      else
      some ((cs.map fun d => d.cx - d.cr).foldr min (d0 - d3),
            (cs.map fun d => d.cx + d.cr).foldr max (d0 + d3),
            (cs.map fun d => d.cy - d.cr).foldr min (d1 - d3),
            (cs.map fun d => d.cy + d.cr).foldr max (d1 + d3),
            (cs.map fun d => d.cz - d.cr).foldr min (d2 - d3),
            (cs.map fun d => d.cz + d.cr).foldr max (d2 + d3))
  | _ => none

/-- Source line 135: `ceil(v / s) * s if v > 0 else floor(v / s) * s`. -/
noncomputable def roundToVoxel (s v : ℝ) : ℝ :=
  if 0 < v then (⌈v / s⌉ : ℝ) * s else (⌊v / s⌋ : ℝ) * s

/-- `PointCloudExporter.findBoundingBox` (source lines 108-141).  The
division by `_voxelSize` raises ZeroDivisionError when it is zero. -/
noncomputable def findBoundingBox (data : List ℝ) (s : ℝ) : Option (Vec3 × Vec3) :=
  if s = 0 then none
  else
    match xyzExtrema data with
    | some (m0, m1, m2, m3, m4, m5) =>
        some (⟨roundToVoxel s m0, roundToVoxel s m2, roundToVoxel s m4⟩,
              ⟨roundToVoxel s m1, roundToVoxel s m3, roundToVoxel s m5⟩)
    | none => none

/-- `PointCloudExporter.frange` (source lines 244-259): `value = _start;
while value < _end: yield value; value += _step`.  The source loop
diverges for a non-positive step with `_start < _end`, so the embedding
carries the proof `0 < step` under which the loop terminates. -/
noncomputable def frange (start stop step : ℝ) (h : 0 < step) : List ℝ :=
  if hlt : start < stop then start :: frange (start + step) stop step h
  else []
termination_by (⌈(stop - start) / step⌉).toNat
decreasing_by
  have hne : step ≠ 0 := ne_of_gt h
  have h1 : (stop - (start + step)) / step = (stop - start) / step - 1 := by
    field_simp
    ring
  have h2 : (⌈(stop - (start + step)) / step⌉) = ⌈(stop - start) / step⌉ - 1 := by
    rw [h1]
    exact_mod_cast Int.ceil_sub_int ((stop - start) / step) 1
  have h3 : (0 : ℤ) < ⌈(stop - start) / step⌉ := by
    rw [Int.ceil_pos]
    exact div_pos (sub_pos.2 hlt) h
  omega

/-- The innermost loop of `PointCloudExporter.sampleSD` (source lines
161-164): iterate the given `z` values, keep `(x, y, z)` when the signed
distance is strictly negative; an exception in `calculateSD` propagates. -/
noncomputable def sampleZ (data : List ℝ) (k x y : ℝ) : List ℝ → Option (List Vec3)
  | [] => some []
  | z :: zs => do
      let value ← calculateSD ⟨x, y, z⟩ data k
      let rest ← sampleZ data k x y zs
      pure (if value < 0 then (⟨x, y, z⟩ : Vec3) :: rest else rest)

/-- The middle loop of `PointCloudExporter.sampleSD` (source lines 160-164). -/
noncomputable def sampleY (data : List ℝ) (k x : ℝ) (zs : List ℝ) :
    List ℝ → Option (List Vec3)
  | [] => some []
  | y :: ys => do
      let first ← sampleZ data k x y zs
      let rest ← sampleY data k x zs ys
      pure (first ++ rest)

/-- The outer loop of `PointCloudExporter.sampleSD` (source lines 159-164). -/
noncomputable def sampleX (data : List ℝ) (k : ℝ) (ys zs : List ℝ) :
    List ℝ → Option (List Vec3)
  | [] => some []
  | x :: xs => do
      let first ← sampleY data k x zs ys
      let rest ← sampleX data k ys zs xs
      pure (first ++ rest)

/-- `PointCloudExporter.sampleSD` (source lines 143-166): triple nested
`frange` loop over the bounding box, collecting points with a strictly
negative signed distance in traversal order (x outer, y middle, z inner). -/
noncomputable def sampleSD (data : List ℝ) (s k : ℝ) (box : Vec3 × Vec3)
    (hs : 0 < s) : Option (List Vec3) :=
  sampleX data k
    (frange box.1.y box.2.y s hs)
    (frange box.1.z box.2.z s hs)
    (frange box.1.x box.2.x s hs)

/-- `PointCloudExporter.export` (source lines 9-18) from the point where the
flat line-segments list has been extracted.  The result distinguishes the
silent no-op (`some none`, fewer than eight values: no bounds, no sampling,
no file), a completed export (`some (some points)`, the points written to
the file), and a raised exception (`none`). -/
noncomputable def exportFromSegments (lineSegments : List ℝ) (s k : ℝ)
    (hs : 0 < s) : Option (Option (List Vec3)) :=
  if 7 < lineSegments.length then do
    let bbox ← findBoundingBox lineSegments s
    let points ← sampleSD lineSegments s k bbox hs
    pure (some points)
  else some none

/-- The sphere graph as seen by `findLineSegments`: node identities are
natural numbers; `parent n` is the node connected to the `parentN` plug of
`n` (if any), `children n` the nodes connected from its `childN` plug in
order, and `pos` / `rad` the translate / max-scale data read from a node's
transform.  The value type of the data is abstract. -/
structure SphereGraph (α : Type) where
  parent : ℕ → Option ℕ
  children : ℕ → List ℕ
  pos : ℕ → α × α × α
  rad : ℕ → α

/-- The loop state of `findLineSegments` (source lines 42-53): the checked
list `checkedN`, the worklist `uncheckedN`, and the flat `lineSegments`. -/
structure TravState (α : Type) where
  checked : List ℕ
  unchecked : List ℕ
  segs : List α
deriving DecidableEq

/-- One iteration of the `while` loop of `findLineSegments` (source lines
56-103): pop the last worklist entry, append it to the checked list, if it
has a parent append the eight segment values `[parent pos, parent radius,
child pos, child radius]`, then push every child not in the checked list. -/
def step {α : Type} (g : SphereGraph α) (s : TravState α) : TravState α :=
  match s.unchecked.getLast? with
  | none => s
  | some node =>
    let checked' := s.checked ++ [node]
    let segs' :=
      match g.parent node with
      | some q =>
          s.segs ++ [(g.pos q).1, (g.pos q).2.1, (g.pos q).2.2, g.rad q,
                     (g.pos node).1, (g.pos node).2.1, (g.pos node).2.2,
                     g.rad node]
      | none => s.segs
    { checked := checked'
      unchecked := s.unchecked.dropLast ++
        (g.children node).filter fun c => decide (c ∉ checked')
      segs := segs' }

/-- The `while (len(uncheckedN) > 0)` loop of `findLineSegments`, run for at
most `fuel` iterations (the source loop has no built-in bound). -/
def runTraversal {α : Type} (g : SphereGraph α) : ℕ → TravState α → TravState α
  | 0, s => s
  | fuel + 1, s =>
      if s.unchecked.isEmpty then s else runTraversal g fuel (step g s)

/-- The initial state of `findLineSegments` (source lines 42-53): empty
checked list, the root on the worklist, no segment data. -/
def initState {α : Type} (root : ℕ) : TravState α :=
  { checked := [], unchecked := [root], segs := [] }

/-- Modelled from the spec (GridSampler, half-open ranges): the values
`a + i * s` for `0 ≤ i < ⌈(b - a) / s⌉`, i.e. exactly the multiples-step
grid values that are strictly below `b`. -/
noncomputable def gridAxis (a b s : ℝ) : List ℝ :=
  (List.range (⌈(b - a) / s⌉).toNat).map fun (i : ℕ) => a + (i : ℝ) * s

/-- Modelled from the spec (GridSampler): all grid points of the box in
traversal order, x outermost, then y, then z innermost. -/
noncomputable def gridSpec (mn mx : Vec3) (s : ℝ) : List Vec3 :=
  (gridAxis mn.x mx.x s).flatMap fun x =>
    (gridAxis mn.y mx.y s).flatMap fun y =>
      (gridAxis mn.z mx.z s).map fun z => (⟨x, y, z⟩ : Vec3)

/-- The sampler's keep-condition at one point: `calculateSD` succeeds and
returns a strictly negative value. -/
noncomputable def isInside (data : List ℝ) (k : ℝ) (p : Vec3) : Bool :=
  match calculateSD p data k with
  | some v => decide (v < 0)
  | none => false

/-- A concrete graph in which node 3 is referenced as a child by both
node 1 and node 2: `0 → [1]`, `1 → [3, 2]`, `2 → [3]`. -/
def dagGraph : SphereGraph ℕ :=
  { parent := fun n =>
      match n with
      | 1 => some 0
      | 2 => some 1
      | 3 => some 1
      | _ => none
    children := fun n =>
      match n with
      | 0 => [1]
      | 1 => [3, 2]
      | 2 => [3]
      | _ => []
    pos := fun _ => (0, 0, 0)
    rad := fun _ => 0 }

/- ### Helper lemmas about folds, rounding and the bounding box -/

lemma foldr_min_le_init (l : List ℝ) (a : ℝ) : l.foldr min a ≤ a := by
  induction l with
  | nil => exact le_refl a
  | cons b t ih => exact le_trans (min_le_right b (t.foldr min a)) ih

lemma foldr_min_le_mem (l : List ℝ) (a x : ℝ) (hx : x ∈ l) : l.foldr min a ≤ x := by
  induction l with
  | nil => cases hx
  | cons b t ih =>
    rcases List.mem_cons.1 hx with h | h
    · exact h ▸ min_le_left b (t.foldr min a)
    · exact le_trans (min_le_right b (t.foldr min a)) (ih h)

lemma le_foldr_max_init (l : List ℝ) (a : ℝ) : a ≤ l.foldr max a := by
  induction l with
  | nil => exact le_refl a
  | cons b t ih => exact le_trans ih (le_max_right b (t.foldr max a))

lemma mem_le_foldr_max (l : List ℝ) (a x : ℝ) (hx : x ∈ l) : x ≤ l.foldr max a := by
  induction l with
  | nil => cases hx
  | cons b t ih =>
    rcases List.mem_cons.1 hx with h | h
    · exact h ▸ le_max_left b (t.foldr max a)
    · exact le_trans (ih h) (le_max_right b (t.foldr max a))

lemma foldl_min_le_init (l : List ℝ) (a : ℝ) : l.foldl min a ≤ a := by
  induction l generalizing a with
  | nil => exact le_refl a
  | cons b t ih =>
    exact le_trans (ih (min a b)) (min_le_left a b)

lemma foldl_min_le_mem (l : List ℝ) (a x : ℝ) (hx : x ∈ l) : l.foldl min a ≤ x := by
  induction l generalizing a with
  | nil => cases hx
  | cons b t ih =>
    rcases List.mem_cons.1 hx with h | h
    · subst h
      exact le_trans (foldl_min_le_init t (min a x)) (min_le_right a x)
    · exact ih (min a b) h

lemma roundToVoxel_le (s v : ℝ) (hs : 0 < s) (hv : v ≤ 0) : roundToVoxel s v ≤ v := by
  have : ¬ 0 < v := not_lt.2 hv
  rw [roundToVoxel, if_neg this]
  calc (⌊v / s⌋ : ℝ) * s ≤ (v / s) * s :=
        mul_le_mul_of_nonneg_right (Int.floor_le _) (le_of_lt hs)
    _ = v := div_mul_cancel₀ v (ne_of_gt hs)

lemma le_roundToVoxel (s v : ℝ) (hs : 0 < s) (hv : 0 ≤ v) : v ≤ roundToVoxel s v := by
  by_cases h : 0 < v
  · rw [roundToVoxel, if_pos h]
    calc v = (v / s) * s := (div_mul_cancel₀ v (ne_of_gt hs)).symm
      _ ≤ (⌈v / s⌉ : ℝ) * s :=
        mul_le_mul_of_nonneg_right (Int.le_ceil _) (le_of_lt hs)
  · have hv0 : v = 0 := le_antisymm (not_lt.1 h) hv
    subst hv0
    rw [roundToVoxel, if_neg h]
    simp

lemma roundToVoxel_mono (s a b : ℝ) (hs : 0 < s) (hab : a ≤ b) :
    roundToVoxel s a ≤ roundToVoxel s b := by
  by_cases ha : 0 < a
  · have hb : 0 < b := lt_of_lt_of_le ha hab
    have hdiv : a / s ≤ b / s := (div_le_div_right hs).2 hab
    rw [roundToVoxel, if_pos ha, roundToVoxel, if_pos hb]
    exact mul_le_mul_of_nonneg_right
      (Int.cast_le.2 (Int.ceil_le_ceil hdiv)) (le_of_lt hs)
  · by_cases hb : 0 < b
    · exact le_trans (roundToVoxel_le s a hs (not_lt.1 ha))
        (le_trans hab (le_roundToVoxel s b hs (le_of_lt hb)))
    · have hdiv : a / s ≤ b / s := (div_le_div_right hs).2 hab
      rw [roundToVoxel, if_neg ha, roundToVoxel, if_neg hb]
      exact mul_le_mul_of_nonneg_right
        (Int.cast_le.2 (Int.floor_le_floor hdiv)) (le_of_lt hs)

lemma roundToVoxel_multiple (s v : ℝ) : ∃ a : ℤ, roundToVoxel s v = a * s := by
  by_cases h : 0 < v
  · exact ⟨⌈v / s⌉, by rw [roundToVoxel, if_pos h]⟩
  · exact ⟨⌊v / s⌋, by rw [roundToVoxel, if_neg h]⟩

lemma xyzExtrema_isSome (data : List ℝ) :
    (xyzExtrema data).isSome = true ↔ 8 ≤ data.length := by
  rcases data with _ | ⟨d0, _ | ⟨d1, _ | ⟨d2, _ | ⟨d3, _ | ⟨d4, _ | ⟨d5,
    _ | ⟨d6, _ | ⟨d7, rest⟩⟩⟩⟩⟩⟩⟩⟩ <;>
    simp [xyzExtrema, chunk8] <;> omega

lemma findBoundingBox_isSome (data : List ℝ) (s : ℝ) :
    (findBoundingBox data s).isSome = true ↔ s ≠ 0 ∧ 8 ≤ data.length := by
  by_cases hs : s = 0
  · simp [findBoundingBox, hs]
  · rw [← xyzExtrema_isSome data]
    rcases h : xyzExtrema data with _ | ⟨⟨m0, m1, m2, m3, m4, m5⟩⟩ <;>
      simp [findBoundingBox, hs, h]

lemma findBoundingBox_of_extrema {data : List ℝ} {s m0 m1 m2 m3 m4 m5 : ℝ}
    (hs : s ≠ 0) (hx : xyzExtrema data = some (m0, m1, m2, m3, m4, m5)) :
    findBoundingBox data s =
      some (⟨roundToVoxel s m0, roundToVoxel s m2, roundToVoxel s m4⟩,
            ⟨roundToVoxel s m1, roundToVoxel s m3, roundToVoxel s m5⟩) := by
  simp [findBoundingBox, hs, hx]

/-- Everything the per-axis reduction guarantees: the unrounded minima and
maxima bound each considered extremum (all child endpoints and the first
parent). -/
lemma xyzExtrema_bounds {data : List ℝ} {m0 m1 m2 m3 m4 m5 : ℝ}
    (hx : xyzExtrema data = some (m0, m1, m2, m3, m4, m5)) :
    (∀ g ∈ chunk8 data,
      m0 ≤ g.cx - g.cr ∧ g.cx + g.cr ≤ m1 ∧ m2 ≤ g.cy - g.cr ∧
      g.cy + g.cr ≤ m3 ∧ m4 ≤ g.cz - g.cr ∧ g.cz + g.cr ≤ m5) ∧
    ∃ d0 d1 d2 d3 rest, data = d0 :: d1 :: d2 :: d3 :: rest ∧
      m0 ≤ d0 - d3 ∧ d0 + d3 ≤ m1 ∧ m2 ≤ d1 - d3 ∧ d1 + d3 ≤ m3 ∧
      m4 ≤ d2 - d3 ∧ d2 + d3 ≤ m5 := by
  rcases data with _ | ⟨d0, _ | ⟨d1, _ | ⟨d2, _ | ⟨d3, rest⟩⟩⟩⟩
  · simp [xyzExtrema] at hx
  · simp [xyzExtrema] at hx
  · simp [xyzExtrema] at hx
  · simp [xyzExtrema] at hx
  by_cases hc : chunk8 (d0 :: d1 :: d2 :: d3 :: rest) = []
  · simp [xyzExtrema, hc] at hx
  simp only [xyzExtrema, hc, if_false, Option.some.injEq, Prod.mk.injEq] at hx
  obtain ⟨h0, h1, h2, h3, h4, h5⟩ := hx
  subst h0 h1 h2 h3 h4 h5
  constructor
  · intro g hg
    refine ⟨foldr_min_le_mem _ _ _ (List.mem_map_of_mem _ hg),
      mem_le_foldr_max _ _ _ (List.mem_map_of_mem _ hg),
      foldr_min_le_mem _ _ _ (List.mem_map_of_mem _ hg),
      mem_le_foldr_max _ _ _ (List.mem_map_of_mem _ hg),
      foldr_min_le_mem _ _ _ (List.mem_map_of_mem _ hg),
      mem_le_foldr_max _ _ _ (List.mem_map_of_mem _ hg)⟩
  · exact ⟨d0, d1, d2, d3, rest, rfl,
      foldr_min_le_init _ _, le_foldr_max_init _ _,
      foldr_min_le_init _ _, le_foldr_max_init _ _,
      foldr_min_le_init _ _, le_foldr_max_init _ _⟩

/- ### smin helper lemmas -/

lemma copysign_of_neg {y : ℝ} (x : ℝ) (hy : y < 0) : copysign x y = -|x| := by
  rw [copysign, if_pos hy]

lemma copysign_of_nonneg {y : ℝ} (x : ℝ) (hy : 0 ≤ y) : copysign x y = |x| := by
  rw [copysign, if_neg (not_lt.2 hy)]

lemma smin_single_aux (v k : ℝ) (hk : k ≠ 0) : smin k [v] = some v := by
  rw [smin]
  simp only [if_neg hk, List.foldl, List.map, List.sum_cons, List.sum_nil, add_zero,
    Real.log_exp]
  have hdiv : -k * v / k = -v := by
    field_simp
    ring
  rw [hdiv]
  by_cases hv : v < 0
  · rw [copysign_of_neg _ hv, abs_neg, abs_of_neg hv]
    ring_nf
  · rw [copysign_of_nonneg _ (not_lt.1 hv), abs_neg, abs_of_nonneg (not_lt.1 hv)]

lemma smin_some_nonpos {k : ℝ} {vs : List ℝ} {x : ℝ} (hk : k ≠ 0)
    (hx : x ∈ vs) (hxneg : x < 0) : ∃ r, smin k vs = some r ∧ r ≤ 0 := by
  rcases vs with _ | ⟨v, t⟩
  · cases hx
  · have hmin : t.foldl min v ≤ x := by
      rcases List.mem_cons.1 hx with h | h
      · exact h ▸ foldl_min_le_init t v
      · exact foldl_min_le_mem t v x h
    have hminneg : t.foldl min v < 0 := lt_of_le_of_lt hmin hxneg
    refine ⟨copysign
      (Real.log ((List.map (fun value => Real.exp (-k * value)) (v :: t)).sum) / k)
      (t.foldl min v), ?_, ?_⟩
    · rw [smin]
      simp only [if_neg hk]
    · rw [copysign_of_neg _ hminneg]
      simp

/- ### Claim theorems: degenerate capsule (C3), error handling (C2),
smin on a single value (C9) -/

/-- C3 counterexample: on a degenerate segment with coinciding endpoints
(here `a = b = (0,0,0)`, radius 1, query point `(1,2,3)`) the division
`(pa * ba) / (ba * ba)` divides by zero, so `sdCapsule` raises
(ZeroDivisionError, modelled `none`) instead of returning the sphere
distance `|p - a| - r`. -/
theorem sdCapsule_degenerate_cex :
    sdCapsule ⟨1, 2, 3⟩ ⟨0, 0, 0⟩ 1 ⟨0, 0, 0⟩ 1 = none := by
  simp [sdCapsule, Vec3.sub, Vec3.dot]

/-- C3 (amended): for every query point, position and radii, the
per-capsule distance on a degenerate segment with equal endpoints fails
with a division-by-zero error (`none`): the internal division by the
squared segment length is `0 / 0`, and no sphere distance is returned. -/
theorem sdCapsule_degenerate_raises (p a : Vec3) (r1 r2 : ℝ) :
    sdCapsule p a r1 a r2 = none := by
  simp [sdCapsule, Vec3.sub, Vec3.dot]

/-- C2 counterexample: with `voxelSize = -1 ≤ 0` and a well-formed
non-empty segment list, `findBoundingBox` does not fail at all (with
InvalidInput or otherwise): it silently proceeds and returns a box. -/
theorem findBoundingBox_neg_voxel_cex :
    (findBoundingBox [0, 0, 0, 1, 3, 0, 0, 1] (-1)).isSome = true := by
  rw [findBoundingBox_isSome]
  norm_num

/-- C2 (amended): `findBoundingBox` performs no InvalidInput validation.
It fails exactly when `voxelSize = 0` (a ZeroDivisionError) or when the
flat list has fewer than eight values — an IndexError on
`_sdCapsuleData[0..3]` below four values (covering the empty list), and a
TypeError in the single-tuple Python 2 transpose at four to seven values;
for every negative `voxelSize` and any list with at least eight values it
silently proceeds and returns a box. -/
theorem findBoundingBox_failure_iff (data : List ℝ) (s : ℝ) :
    (findBoundingBox data s).isSome = true ↔ s ≠ 0 ∧ 8 ≤ data.length :=
  findBoundingBox_isSome data s

/-- C9: the smooth minimum of a single value is exactly that value, for
every smoothness `k > 0`: the magnitude `log(exp(-k*v))/k = -v` combined
with the sign of the hard minimum `v` reproduces `v`, for negative, zero
and positive `v` alike. -/
theorem smin_single (v k : ℝ) (hk : 0 < k) : smin k [v] = some v :=
  smin_single_aux v k (ne_of_gt hk)

/-- C9 witness: `smin 1 [-2] = some (-2)` via the theorem at `v = -2`,
`k = 1`. -/
theorem smin_single_witness : (0 : ℝ) < 1 ∧ smin 1 [-2] = some (-2) :=
  ⟨one_pos, smin_single (-2) 1 one_pos⟩

/- ### Claim theorems: bounding box (C1, C6) -/

lemma roundToVoxel_eval_pos {s v : ℝ} {n : ℤ} (hv : 0 < v) (hn : ⌈v / s⌉ = n) :
    roundToVoxel s v = n * s := by
  rw [roundToVoxel, if_pos hv, hn]

lemma roundToVoxel_eval_nonpos {s v : ℝ} {n : ℤ} (hv : v ≤ 0) (hn : ⌊v / s⌋ = n) :
    roundToVoxel s v = n * s := by
  rw [roundToVoxel, if_neg (not_lt.2 hv), hn]

/-- C1 counterexample: for the single segment `[2,0,0,1, 2,0,0,1]`
(radii 1 > 0) and `voxelSize = 2 > 0` the unrounded lower x-extremum is
`2 - 1 = 1 > 0`, and the snapping rounds it UP to `⌈1/2⌉*2 = 2`: the
returned min corner `2` exceeds the unrounded extremum `1`, so the box
shrank and no longer contains the endpoint extremum `x - r`. -/
theorem bbox_shrinks_cex :
    xyzExtrema [2, 0, 0, 1, 2, 0, 0, 1] = some (1, 3, -1, 1, -1, 1) ∧
    findBoundingBox [2, 0, 0, 1, 2, 0, 0, 1] 2 =
      some (⟨2, -2, -2⟩, ⟨4, 2, 2⟩) ∧ ¬ ((2 : ℝ) ≤ 1) := by
  have hx : xyzExtrema [2, 0, 0, 1, 2, 0, 0, 1] = some (1, 3, -1, 1, -1, 1) := by
    simp [xyzExtrema, chunk8]
    norm_num [min_def, max_def]
  refine ⟨hx, ?_, by norm_num⟩
  rw [findBoundingBox_of_extrema (by norm_num) hx]
  have c1 : ⌈(1 : ℝ) / 2⌉ = 1 := by
    rw [Int.ceil_eq_iff] <;> norm_num
  have c3 : ⌈(3 : ℝ) / 2⌉ = 2 := by
    rw [Int.ceil_eq_iff] <;> norm_num
  have f1 : ⌊(-1 : ℝ) / 2⌋ = -1 := by
    rw [Int.floor_eq_iff] <;> norm_num
  rw [roundToVoxel_eval_pos one_pos c1, roundToVoxel_eval_pos (by norm_num) c3,
    roundToVoxel_eval_nonpos (by norm_num) f1]
  norm_num

/-- C1 (amended): the outward snapping grows the box only on the side
whose sign matches the rounding direction.  Whenever every per-axis lower
extremum is `≤ 0` and every upper extremum is `≥ 0`, the snapped box
contains all unrounded extrema (each considered endpoint coordinate minus
its radius down to the lower bound, plus its radius up to the upper
bound); in general a strictly positive lower bound is rounded up and a
strictly negative upper bound is rounded down, shrinking the box. -/
theorem bbox_contains_of_signs (data : List ℝ) (s m0 m1 m2 m3 m4 m5 : ℝ)
    (hs : 0 < s) (hx : xyzExtrema data = some (m0, m1, m2, m3, m4, m5))
    (h0 : m0 ≤ 0) (h1 : 0 ≤ m1) (h2 : m2 ≤ 0) (h3 : 0 ≤ m3)
    (h4 : m4 ≤ 0) (h5 : 0 ≤ m5) :
    ∃ mn mx : Vec3, findBoundingBox data s = some (mn, mx) ∧
      mn.x ≤ m0 ∧ m1 ≤ mx.x ∧ mn.y ≤ m2 ∧ m3 ≤ mx.y ∧ mn.z ≤ m4 ∧ m5 ≤ mx.z ∧
      ∀ g ∈ chunk8 data,
        mn.x ≤ g.cx - g.cr ∧ g.cx + g.cr ≤ mx.x ∧
        mn.y ≤ g.cy - g.cr ∧ g.cy + g.cr ≤ mx.y ∧
        mn.z ≤ g.cz - g.cr ∧ g.cz + g.cr ≤ mx.z := by
  obtain ⟨hch, -⟩ := xyzExtrema_bounds hx
  have r0 := roundToVoxel_le s m0 hs h0
  have r1 := le_roundToVoxel s m1 hs h1
  have r2 := roundToVoxel_le s m2 hs h2
  have r3 := le_roundToVoxel s m3 hs h3
  have r4 := roundToVoxel_le s m4 hs h4
  have r5 := le_roundToVoxel s m5 hs h5
  refine ⟨_, _, findBoundingBox_of_extrema (ne_of_gt hs) hx,
    r0, r1, r2, r3, r4, r5, fun g hg => ?_⟩
  obtain ⟨a0, a1, a2, a3, a4, a5⟩ := hch g hg
  exact ⟨le_trans r0 a0, le_trans a1 r1, le_trans r2 a2,
    le_trans a3 r3, le_trans r4 a4, le_trans a5 r5⟩

/-- C1 witness: the amended theorem applied to the two-sphere segment
`[0,0,0,1, 3,0,0,1]` with `voxelSize = 2`, whose extrema
`(-1, 4, -1, 1, -1, 1)` satisfy the sign conditions. -/
theorem bbox_contains_witness :
    ∃ mn mx : Vec3, findBoundingBox [0, 0, 0, 1, 3, 0, 0, 1] 2 = some (mn, mx) ∧
      mn.x ≤ -1 ∧ 4 ≤ mx.x ∧ mn.y ≤ -1 ∧ 1 ≤ mx.y ∧ mn.z ≤ -1 ∧ 1 ≤ mx.z ∧
      ∀ g ∈ chunk8 [(0 : ℝ), 0, 0, 1, 3, 0, 0, 1],
        mn.x ≤ g.cx - g.cr ∧ g.cx + g.cr ≤ mx.x ∧
        mn.y ≤ g.cy - g.cr ∧ g.cy + g.cr ≤ mx.y ∧
        mn.z ≤ g.cz - g.cr ∧ g.cz + g.cr ≤ mx.z := by
  refine bbox_contains_of_signs [0, 0, 0, 1, 3, 0, 0, 1] 2 (-1) 4 (-1) 1 (-1) 1
    (by norm_num) ?_ (by norm_num) (by norm_num) (by norm_num) (by norm_num)
    (by norm_num) (by norm_num)
  simp [xyzExtrema, chunk8]
  norm_num [min_def, max_def]

/-- C6: for a non-empty segment list with positive radii and a positive
voxel size, `findBoundingBox` returns a box whose min and max corners are
componentwise exact integer multiples of the voxel size, with
`min[i] ≤ max[i]` on every axis. -/
theorem bbox_multiple_and_ordered (data : List ℝ)
    (s d0 d1 d2 d3 d4 d5 d6 d7 : ℝ) (rest : List ℝ) (hs : 0 < s)
    (hdata : data = d0 :: d1 :: d2 :: d3 :: d4 :: d5 :: d6 :: d7 :: rest)
    (hd3 : 0 < d3) (hrad : ∀ g ∈ chunk8 data, 0 < g.pr ∧ 0 < g.cr) :
    ∃ mn mx : Vec3, findBoundingBox data s = some (mn, mx) ∧
      (∃ a : ℤ, mn.x = a * s) ∧ (∃ a : ℤ, mn.y = a * s) ∧
      (∃ a : ℤ, mn.z = a * s) ∧ (∃ a : ℤ, mx.x = a * s) ∧
      (∃ a : ℤ, mx.y = a * s) ∧ (∃ a : ℤ, mx.z = a * s) ∧
      mn.x ≤ mx.x ∧ mn.y ≤ mx.y ∧ mn.z ≤ mx.z := by
  have hsome : (xyzExtrema data).isSome = true := by
    rw [xyzExtrema_isSome, hdata]
    simp
  obtain ⟨⟨m0, m1, m2, m3, m4, m5⟩, hx⟩ := Option.isSome_iff_exists.1 hsome
  obtain ⟨-, e0, e1, e2, e3, erest, heq, hb0, hb1, hb2, hb3, hb4, hb5⟩ :=
    xyzExtrema_bounds hx
  rw [hdata] at heq
  obtain ⟨q0, q1, q2, q3, -⟩ : d0 = e0 ∧ d1 = e1 ∧ d2 = e2 ∧ d3 = e3 ∧
      d4 :: d5 :: d6 :: d7 :: rest = erest := by
    simpa using heq
  subst q0 q1 q2 q3
  have hm01 : m0 ≤ m1 := le_trans hb0 (le_trans (by linarith) hb1)
  have hm23 : m2 ≤ m3 := le_trans hb2 (le_trans (by linarith) hb3)
  have hm45 : m4 ≤ m5 := le_trans hb4 (le_trans (by linarith) hb5)
  exact ⟨_, _, findBoundingBox_of_extrema (ne_of_gt hs) hx,
    roundToVoxel_multiple s m0, roundToVoxel_multiple s m2,
    roundToVoxel_multiple s m4, roundToVoxel_multiple s m1,
    roundToVoxel_multiple s m3, roundToVoxel_multiple s m5,
    roundToVoxel_mono s m0 m1 hs hm01, roundToVoxel_mono s m2 m3 hs hm23,
    roundToVoxel_mono s m4 m5 hs hm45⟩

/-- C6 witness: the theorem applied to the segment `[0,0,0,1, 3,0,0,1]`
with `voxelSize = 2`. -/
theorem bbox_multiple_and_ordered_witness :
    ∃ mn mx : Vec3, findBoundingBox [0, 0, 0, 1, 3, 0, 0, 1] 2 = some (mn, mx) ∧
      (∃ a : ℤ, mn.x = a * 2) ∧ (∃ a : ℤ, mn.y = a * 2) ∧
      (∃ a : ℤ, mn.z = a * 2) ∧ (∃ a : ℤ, mx.x = a * 2) ∧
      (∃ a : ℤ, mx.y = a * 2) ∧ (∃ a : ℤ, mx.z = a * 2) ∧
      mn.x ≤ mx.x ∧ mn.y ≤ mx.y ∧ mn.z ≤ mx.z := by
  refine bbox_multiple_and_ordered [0, 0, 0, 1, 3, 0, 0, 1] 2 0 0 0 1 3 0 0 1 []
    (by norm_num) (by norm_num) (by norm_num) ?_
  intro g hg
  simp [chunk8] at hg
  rw [hg]
  norm_num

/- ### Claim theorems: export threshold (C5), traversal output shape (C10) -/

/-- C5: `export` with fewer than eight extracted values is a silent no-op
(`some none`: no bounds, no sampling, no file, no error); with eight or
more values it leaves the no-op path and proceeds into bounds
computation (which succeeds), sampling and writing — so the outcome is a
written file or a raised exception from the later stages, never the
silent no-op. -/
theorem export_threshold (segs : List ℝ) (s k : ℝ) (hs : 0 < s) :
    (segs.length ≤ 7 → exportFromSegments segs s k hs = some none) ∧
    (7 < segs.length →
      (findBoundingBox segs s).isSome = true ∧
      exportFromSegments segs s k hs ≠ some none) := by
  constructor
  · intro h
    rw [exportFromSegments, if_neg (by omega)]
  · intro h
    have hbb : (findBoundingBox segs s).isSome = true :=
      (findBoundingBox_isSome segs s).2 ⟨ne_of_gt hs, by omega⟩
    refine ⟨hbb, ?_⟩
    obtain ⟨bb, hbbeq⟩ := Option.isSome_iff_exists.1 hbb
    rw [exportFromSegments, if_pos h]
    cases hsamp : sampleSD segs s k bb hs <;>
      simp [hbbeq, hsamp, Option.bind]

/-- C5 witness: the empty extracted list is a silent no-op. -/
theorem export_threshold_witness : exportFromSegments [] 1 4 one_pos = some none :=
  (export_threshold [] 1 4 one_pos).1 (by norm_num)

lemma step_segs_len {α : Type} (g : SphereGraph α) (s : TravState α) :
    (step g s).segs.length % 8 = s.segs.length % 8 := by
  rw [step]
  cases hgl : s.unchecked.getLast? with
  | none => rfl
  | some node =>
    cases hp : g.parent node
    · simp [hp]
    · simp only [hp, List.length_append, List.length_cons, List.length_nil]
      omega

lemma runTraversal_segs_mod8 {α : Type} (g : SphereGraph α) :
    ∀ (fuel : ℕ) (s : TravState α), s.segs.length % 8 = 0 →
      (runTraversal g fuel s).segs.length % 8 = 0 := by
  intro fuel
  induction fuel with
  | zero => exact fun s h => h
  | succ n ih =>
    intro s h
    rw [runTraversal]
    by_cases he : s.unchecked.isEmpty
    · rw [if_pos he]
      exact h
    · rw [if_neg he]
      exact ih _ (by rw [step_segs_len]; exact h)

lemma chunk8_length_eq {α : Type} : ∀ (l : List α), l.length % 8 = 0 →
    8 * (chunk8 l).length = l.length
  | [], _ => by simp [chunk8]
  | [a], h => by simp at h
  | [a, b], h => by simp at h
  | [a, b, c], h => by simp at h
  | [a, b, c, d], h => by simp at h
  | [a, b, c, d, e], h => by simp at h
  | [a, b, c, d, e, f], h => by simp at h
  | [a, b, c, d, e, f, g0], h => by simp at h
  | p1 :: p2 :: p3 :: p4 :: c1 :: c2 :: c3 :: c4 :: rest, h => by
      have hr : rest.length % 8 = 0 := by
        simp only [List.length_cons] at h
        omega
      have ih := chunk8_length_eq rest hr
      simp only [chunk8, List.length_cons]
      omega

/-- C10: for every graph, root and number of loop iterations, the flat
list built by `findLineSegments` has length an exact multiple of eight
(each discovered parent link appends exactly the eight numbers
`[parent x, y, z, radius, child x, y, z, radius]`), and the downstream
group-by-8 regrouping consumes the whole list without dropping a trailing
remainder. -/
theorem segments_length_mod8 {α : Type} (g : SphereGraph α) (root fuel : ℕ) :
    (runTraversal g fuel (initState root)).segs.length % 8 = 0 ∧
    8 * (chunk8 ((runTraversal g fuel (initState root)).segs)).length =
      ((runTraversal g fuel (initState root)).segs).length := by
  have h := runTraversal_segs_mod8 g fuel (initState root) (by simp [initState])
  exact ⟨h, chunk8_length_eq _ h⟩

/- ### Claim C4: behaviour of the worklist traversal -/

/-- Tree-shaped reference structure over a finite node set `V`: every node
is referenced as a child at most once in the whole graph, the root is
never referenced, and all children references stay inside `V`. -/
structure TreeLike {α : Type} (g : SphereGraph α) (V : Finset ℕ) (root : ℕ) :
    Prop where
  root_not_child : ∀ v, root ∉ g.children v
  unique_ref : ∀ v1 v2 w, w ∈ g.children v1 → w ∈ g.children v2 → v1 = v2
  children_nodup : ∀ v, (g.children v).Nodup
  children_mem : ∀ v, ∀ c ∈ g.children v, c ∈ V
  root_mem : root ∈ V

/-- Loop invariant of the traversal on tree-shaped graphs: worklist
without duplicates and disjoint from the checked list, every worklist
entry was pushed by its (already checked) unique referencing node, the
worklist stays inside `V`, and no node has been popped twice. -/
def TravInv {α : Type} (g : SphereGraph α) (V : Finset ℕ) (s : TravState α) :
    Prop :=
  s.unchecked.Nodup ∧
  (∀ w ∈ s.unchecked, w ∉ s.checked) ∧
  (∀ w ∈ s.unchecked, ∀ v, w ∈ g.children v → v ∈ s.checked) ∧
  (∀ w ∈ s.unchecked, w ∈ V) ∧
  s.checked.Nodup

/-- Termination measure: unchecked nodes contribute their worklist slot
plus the pushes they may still cause; checked nodes contribute nothing. -/
def phiMeasure {α : Type} (g : SphereGraph α) (V : Finset ℕ) (s : TravState α) :
    ℕ :=
  ((V.filter fun v => v ∉ s.checked).sum fun v => 1 + (g.children v).length) +
    s.unchecked.length

lemma step_checked_of_concat {α : Type} (g : SphereGraph α) (s : TravState α)
    {l' : List ℕ} {node : ℕ} (h : s.unchecked = l' ++ [node]) :
    (step g s).checked = s.checked ++ [node] := by
  simp only [step, h, List.getLast?_concat, List.dropLast_concat]

lemma step_unchecked_of_concat {α : Type} (g : SphereGraph α) (s : TravState α)
    {l' : List ℕ} {node : ℕ} (h : s.unchecked = l' ++ [node]) :
    (step g s).unchecked =
      l' ++ (g.children node).filter fun c => decide (c ∉ s.checked ++ [node]) := by
  simp only [step, h, List.getLast?_concat, List.dropLast_concat]

lemma step_inv {α : Type} {g : SphereGraph α} {V : Finset ℕ} {root : ℕ}
    (hT : TreeLike g V root) {s : TravState α} (hInv : TravInv g V s) :
    TravInv g V (step g s) := by
  obtain ⟨hnd, hdisj, href, hmem, hcnd⟩ := hInv
  rcases List.eq_nil_or_concat s.unchecked with hnil | ⟨l', node, hcat⟩
  · rw [step, hnil]
    exact ⟨hnd, hdisj, href, hmem, hcnd⟩
  rw [List.concat_eq_append] at hcat
  have hnodeU : node ∈ s.unchecked := by
    rw [hcat]
    exact List.mem_append_right l' (List.mem_singleton_self node)
  have hnodeC : node ∉ s.checked := hdisj node hnodeU
  have hndl : l'.Nodup ∧ node ∉ l' := by
    have := hcat ▸ hnd
    rw [List.nodup_append] at this
    exact ⟨this.1, fun hmem' => this.2.2 hmem' (List.mem_singleton_self node)⟩
  have hsubl : ∀ w ∈ l', w ∈ s.unchecked := by
    intro w hw
    rw [hcat]
    exact List.mem_append_left _ hw
  rw [TravInv, step_checked_of_concat g s hcat, step_unchecked_of_concat g s hcat]
  refine ⟨?_, ?_, ?_, ?_, ?_⟩
  · rw [List.nodup_append]
    refine ⟨hndl.1, List.Nodup.filter _ (hT.children_nodup node), ?_⟩
    intro w hw hwf
    have hwch : w ∈ g.children node := (List.mem_filter.1 hwf).1
    exact hnodeC (href w (hsubl w hw) node hwch)
  · intro w hw
    rcases List.mem_append.1 hw with hw | hw
    · intro hwc
      rcases List.mem_append.1 hwc with hwc | hwc
      · exact hdisj w (hsubl w hw) hwc
      · exact hndl.2 ((List.mem_singleton.1 hwc) ▸ hw)
    · exact of_decide_eq_true (List.mem_filter.1 hw).2
  · intro w hw v hv
    rcases List.mem_append.1 hw with hw | hw
    · exact List.mem_append_left _ (href w (hsubl w hw) v hv)
    · have hwch : w ∈ g.children node := (List.mem_filter.1 hw).1
      have : v = node := hT.unique_ref v node w hv hwch
      rw [this]
      exact List.mem_append_right _ (List.mem_singleton_self node)
  · intro w hw
    rcases List.mem_append.1 hw with hw | hw
    · exact hmem w (hsubl w hw)
    · exact hT.children_mem node w (List.mem_filter.1 hw).1
  · rw [List.nodup_append]
    exact ⟨hcnd, List.nodup_singleton node,
      fun a ha hna => hnodeC ((List.mem_singleton.1 hna) ▸ ha)⟩

lemma step_phi_lt {α : Type} {g : SphereGraph α} {V : Finset ℕ}
    {s : TravState α} (hne : s.unchecked ≠ [])
    (hInv : TravInv g V s) :
    phiMeasure g V (step g s) < phiMeasure g V s := by
  obtain ⟨hnd, hdisj, href, hmem, hcnd⟩ := hInv
  rcases List.eq_nil_or_concat s.unchecked with hnil | ⟨l', node, hcat⟩
  · exact absurd hnil hne
  rw [List.concat_eq_append] at hcat
  have hnodeU : node ∈ s.unchecked := by
    rw [hcat]
    exact List.mem_append_right l' (List.mem_singleton_self node)
  have hnodeC : node ∉ s.checked := hdisj node hnodeU
  have hnodeV : node ∈ V := hmem node hnodeU
  have hset : (V.filter fun v => v ∉ s.checked ++ [node]) =
      (V.filter fun v => v ∉ s.checked).erase node := by
    ext v
    simp only [Finset.mem_filter, Finset.mem_erase, List.mem_append,
      List.mem_singleton]
    tauto
  have hmemf : node ∈ V.filter fun v => v ∉ s.checked :=
    Finset.mem_filter.2 ⟨hnodeV, hnodeC⟩
  have hsum : (1 + (g.children node).length) +
      ∑ v ∈ (V.filter fun v => v ∉ s.checked).erase node,
        (1 + (g.children v).length) =
      ∑ v ∈ V.filter fun v => v ∉ s.checked, (1 + (g.children v).length) :=
    Finset.add_sum_erase _ (fun v => 1 + (g.children v).length) hmemf
  have hfillen :
      ((g.children node).filter fun c => decide (c ∉ s.checked ++ [node])).length ≤
        (g.children node).length := List.length_filter_le _ _
  rw [phiMeasure, phiMeasure, step_checked_of_concat g s hcat,
    step_unchecked_of_concat g s hcat, hset, hcat]
  simp only [List.length_append, List.length_singleton]
  omega

lemma runTraversal_inv {α : Type} {g : SphereGraph α} {V : Finset ℕ}
    {root : ℕ} (hT : TreeLike g V root) :
    ∀ (n : ℕ) (s : TravState α), TravInv g V s →
      TravInv g V (runTraversal g n s) := by
  intro n
  induction n with
  | zero => exact fun s h => h
  | succ n ih =>
    intro s h
    rw [runTraversal]
    by_cases he : s.unchecked.isEmpty
    · rw [if_pos he]
      exact h
    · rw [if_neg he]
      exact ih _ (step_inv hT h)

lemma runTraversal_reaches_empty {α : Type} {g : SphereGraph α} {V : Finset ℕ}
    {root : ℕ} (hT : TreeLike g V root) :
    ∀ (n : ℕ) (s : TravState α), TravInv g V s → phiMeasure g V s ≤ n →
      (runTraversal g n s).unchecked = [] := by
  intro n
  induction n with
  | zero =>
    intro s hInv hphi
    rw [runTraversal]
    have hlen : s.unchecked.length = 0 := by
      rw [phiMeasure] at hphi
      omega
    exact List.length_eq_zero.1 hlen
  | succ n ih =>
    intro s hInv hphi
    rw [runTraversal]
    by_cases he : s.unchecked.isEmpty
    · rw [if_pos he]
      exact List.isEmpty_iff.1 he
    · rw [if_neg he]
      have hne : s.unchecked ≠ [] := by
        simpa [List.isEmpty_iff] using he
      have hlt := step_phi_lt hne hInv
      exact ih (step g s) (step_inv hT hInv) (by omega)

lemma initState_inv {α : Type} {g : SphereGraph α} {V : Finset ℕ} {root : ℕ}
    (hT : TreeLike g V root) : TravInv g V (initState (α := α) root) := by
  refine ⟨List.nodup_singleton root, ?_, ?_, ?_, List.nodup_nil⟩
  · intro w hw
    simp [initState]
  · intro w hw v hv
    rw [initState] at hw
    simp only [List.mem_singleton] at hw
    exact absurd (hw ▸ hv) (hT.root_not_child v)
  · intro w hw
    rw [initState] at hw
    simp only [List.mem_singleton] at hw
    exact hw ▸ hT.root_mem

/-- C4 counterexample: in `dagGraph` node 3 is referenced as a child by
both node 1 and node 2.  Running the loop to completion pops node 3
TWICE (`checked = [0, 1, 2, 3, 3]`), and the single parent edge of node 3
contributes two identical 8-value segments: only 3 parent links exist but
32 = 4 * 8 values are emitted. -/
theorem traversal_double_pop_cex :
    (runTraversal dagGraph 6 (initState 0)).checked = [0, 1, 2, 3, 3] ∧
    ¬ ((runTraversal dagGraph 6 (initState 0)).checked).Nodup ∧
    (runTraversal dagGraph 6 (initState 0)).segs.length = 32 := by
  refine ⟨rfl, by decide, rfl⟩

/-- C4 (amended): on finite graphs obeying the tree convention — each
node referenced as a child at most once, the root never referenced — the
worklist traversal never pops (processes) the same node twice, after any
number of iterations, and it terminates (with the measure of the initial
state as sufficient fuel the worklist is exhausted).  On general graphs a
node reachable through multiple children references can be pushed, popped
and processed once per reference, duplicating its segment. -/
theorem traversal_tree_nodup_and_terminates {α : Type} (g : SphereGraph α)
    (V : Finset ℕ) (root : ℕ) (hT : TreeLike g V root) :
    (∀ fuel, ((runTraversal g fuel (initState (α := α) root)).checked).Nodup) ∧
    ∃ fuel, (runTraversal g fuel (initState (α := α) root)).unchecked = [] := by
  constructor
  · intro fuel
    exact (runTraversal_inv hT fuel _ (initState_inv hT)).2.2.2.2
  · exact ⟨phiMeasure g V (initState root),
      runTraversal_reaches_empty hT _ _ (initState_inv hT) le_rfl⟩

/-- A single isolated node: the simplest tree-shaped graph. -/
def singletonGraph : SphereGraph ℕ :=
  { parent := fun _ => none
    children := fun _ => []
    pos := fun _ => (0, 0, 0)
    rad := fun _ => 0 }

/-- C4 witness: the amended theorem applied to the singleton graph. -/
theorem traversal_tree_witness :
    (∀ fuel, ((runTraversal singletonGraph fuel (initState 0)).checked).Nodup) ∧
    ∃ fuel, (runTraversal singletonGraph fuel (initState 0)).unchecked = [] :=
  traversal_tree_nodup_and_terminates singletonGraph {0} 0
    ⟨fun v => by simp [singletonGraph],
     fun v1 v2 w h1 h2 => by simp [singletonGraph] at h1,
     fun v => by simp [singletonGraph],
     fun v c hc => by simp [singletonGraph] at hc,
     by simp⟩

/- ### Claim C8: sign of the field at endpoint centers and outside -/

lemma dot_self_nonneg (v : Vec3) : 0 ≤ Vec3.dot v v := by
  rw [Vec3.dot]
  nlinarith [mul_self_nonneg v.x, mul_self_nonneg v.y, mul_self_nonneg v.z]

lemma sdCapsule_isSome (p a : Vec3) (r1 : ℝ) (b : Vec3) (r2 : ℝ)
    (hnd : Vec3.dot (Vec3.sub b a) (Vec3.sub b a) ≠ 0) :
    (sdCapsule p a r1 b r2).isSome = true := by
  simp only [sdCapsule]
  rw [if_neg hnd]
  rfl

lemma sdCapsule_at_left (a b : Vec3) (r1 r2 : ℝ)
    (hnd : Vec3.dot (Vec3.sub b a) (Vec3.sub b a) ≠ 0) :
    sdCapsule a a r1 b r2 = some (-r1) := by
  simp only [sdCapsule]
  rw [if_neg hnd]
  have hpa : Vec3.sub a a = ⟨0, 0, 0⟩ := by
    simp [Vec3.sub]
  rw [hpa]
  have hdot0 : Vec3.dot ⟨0, 0, 0⟩ (Vec3.sub b a) = 0 := by
    simp [Vec3.dot]
  rw [hdot0, zero_div]
  rw [if_neg (by norm_num : ¬ (1 : ℝ) < 0), if_neg (lt_irrefl (0 : ℝ))]
  have hsm : Vec3.smul 0 (Vec3.sub b a) = ⟨0, 0, 0⟩ := by
    simp [Vec3.smul]
  rw [hsm]
  have hz : Vec3.sub ⟨0, 0, 0⟩ ⟨0, 0, 0⟩ = ⟨0, 0, 0⟩ := by
    simp [Vec3.sub]
  rw [hz]
  have hlen : Vec3.length ⟨0, 0, 0⟩ = 0 := by
    simp [Vec3.length, Vec3.dot]
  rw [hlen]
  norm_num

lemma sdCapsule_at_right (a b : Vec3) (r1 r2 : ℝ)
    (hnd : Vec3.dot (Vec3.sub b a) (Vec3.sub b a) ≠ 0) :
    sdCapsule b a r1 b r2 = some (-r2) := by
  simp only [sdCapsule]
  rw [if_neg hnd]
  rw [div_self hnd]
  rw [if_neg (lt_irrefl (1 : ℝ)), if_neg (by norm_num : ¬ (1 : ℝ) < 0)]
  have hsm : Vec3.smul 1 (Vec3.sub b a) = Vec3.sub b a := by
    simp [Vec3.smul]
  rw [hsm]
  have hz : Vec3.sub (Vec3.sub b a) (Vec3.sub b a) = ⟨0, 0, 0⟩ := by
    simp [Vec3.sub]
  rw [hz]
  have hlen : Vec3.length ⟨0, 0, 0⟩ = 0 := by
    simp [Vec3.length, Vec3.dot]
  rw [hlen]
  simp only [Option.some.injEq]
  ring

lemma mapM_option_eq_some {α β : Type} (f : α → Option β) :
    ∀ (l : List α), (∀ a ∈ l, (f a).isSome = true) →
      ∃ bl, l.mapM f = some bl ∧ List.Forall₂ (fun a b => f a = some b) l bl := by
  intro l
  induction l with
  | nil => exact fun _ => ⟨[], rfl, List.Forall₂.nil⟩
  | cons a t ih =>
    intro h
    obtain ⟨b, hb⟩ := Option.isSome_iff_exists.1 (h a (List.mem_cons_self a t))
    obtain ⟨bl, hbl, hfa⟩ := ih fun x hx => h x (List.mem_cons_of_mem a hx)
    exact ⟨b :: bl, by rw [List.mapM_cons, hb, hbl]; rfl, List.Forall₂.cons hb hfa⟩

lemma forall2_mem_left {α β : Type} {R : α → β → Prop} :
    ∀ {l : List α} {bl : List β}, List.Forall₂ R l bl →
      ∀ a ∈ l, ∃ b ∈ bl, R a b := by
  intro l bl h
  induction h with
  | nil => intro a ha; cases ha
  | @cons x y t bt hR hrest ih =>
    intro a ha
    rcases List.mem_cons.1 ha with ha | ha
    · exact ⟨y, List.mem_cons_self y bt, ha ▸ hR⟩
    · obtain ⟨b, hbmem, hb⟩ := ih a ha
      exact ⟨b, List.mem_cons_of_mem y hbmem, hb⟩

/-- If every capsule evaluation at `p` succeeds and one of them is
strictly negative, `calculateSD p` succeeds with a non-positive value. -/
lemma calculateSD_some_nonpos {data : List ℝ} {k : ℝ} {p : Vec3} (hk : k ≠ 0)
    (hall : ∀ g ∈ chunk8 data,
      (sdCapsule p ⟨g.px, g.py, g.pz⟩ g.pr ⟨g.cx, g.cy, g.cz⟩ g.cr).isSome = true)
    {g0 : Seg8 ℝ} (hg0 : g0 ∈ chunk8 data) {v0 : ℝ}
    (hv0 : sdCapsule p ⟨g0.px, g0.py, g0.pz⟩ g0.pr ⟨g0.cx, g0.cy, g0.cz⟩ g0.cr =
      some v0)
    (hneg : v0 < 0) :
    ∃ v, calculateSD p data k = some v ∧ v ≤ 0 := by
  obtain ⟨bl, hbl, hfa⟩ := mapM_option_eq_some _ (chunk8 data) hall
  obtain ⟨b, hbmem, hb⟩ := forall2_mem_left hfa g0 hg0
  have hbv : b = v0 := by
    rw [hv0] at hb
    exact (Option.some_injective _ hb).symm
  obtain ⟨r, hsmin, hr⟩ := smin_some_nonpos hk (hbv ▸ hbmem) hneg
  refine ⟨r, ?_, hr⟩
  rw [calculateSD, hbl]
  exact hsmin

/-- A single tapered capsule evaluated behind the `a` cap at distance
`r + ε` from the center `a` yields exactly `ε`. -/
lemma calculateSD_outside_pos (a b : Vec3) (r k ε : ℝ) (hk : k ≠ 0) (hr : 0 ≤ r)
    (hε : 0 < ε) (hnd : Vec3.dot (Vec3.sub b a) (Vec3.sub b a) ≠ 0) (p : Vec3)
    (hside : Vec3.dot (Vec3.sub p a) (Vec3.sub b a) ≤ 0)
    (hdist : Vec3.dot (Vec3.sub p a) (Vec3.sub p a) = (r + ε) ^ 2) :
    calculateSD p [a.x, a.y, a.z, r, b.x, b.y, b.z, r] k = some ε := by
  have hD : 0 < Vec3.dot (Vec3.sub b a) (Vec3.sub b a) :=
    lt_of_le_of_ne (dot_self_nonneg _) (Ne.symm hnd)
  have hq : Vec3.dot (Vec3.sub p a) (Vec3.sub b a) /
      Vec3.dot (Vec3.sub b a) (Vec3.sub b a) ≤ 0 :=
    div_nonpos_iff.2 (Or.inr ⟨hside, le_of_lt hD⟩)
  have hcap : sdCapsule p a r b r = some ε := by
    simp only [sdCapsule]
    rw [if_neg hnd]
    rw [if_neg (not_lt.2 (le_trans hq (by norm_num)))]
    have hzero : (if Vec3.dot (Vec3.sub p a) (Vec3.sub b a) /
        Vec3.dot (Vec3.sub b a) (Vec3.sub b a) < 0 then (0 : ℝ)
        else Vec3.dot (Vec3.sub p a) (Vec3.sub b a) /
          Vec3.dot (Vec3.sub b a) (Vec3.sub b a)) = 0 := by
      by_cases hlt : Vec3.dot (Vec3.sub p a) (Vec3.sub b a) /
          Vec3.dot (Vec3.sub b a) (Vec3.sub b a) < 0
      · rw [if_pos hlt]
      · rw [if_neg hlt]
        exact le_antisymm hq (not_lt.1 hlt)
    rw [hzero]
    have hsm : Vec3.smul 0 (Vec3.sub b a) = ⟨0, 0, 0⟩ := by
      simp [Vec3.smul]
    rw [hsm]
    have hz : Vec3.sub (Vec3.sub p a) ⟨0, 0, 0⟩ = Vec3.sub p a := by
      simp [Vec3.sub]
    rw [hz]
    have hlen : Vec3.length (Vec3.sub p a) = r + ε := by
      rw [Vec3.length, hdist]
      exact Real.sqrt_sq (by linarith)
    rw [hlen]
    norm_num
  have hcap' : sdCapsule p ⟨a.x, a.y, a.z⟩ r ⟨b.x, b.y, b.z⟩ r = some ε := hcap
  have hchunk : chunk8 [a.x, a.y, a.z, r, b.x, b.y, b.z, r] =
      [⟨a.x, a.y, a.z, r, b.x, b.y, b.z, r⟩] := rfl
  rw [calculateSD, hchunk, List.mapM_cons, hcap']
  simp only [List.mapM_nil, Option.pure_def, Option.bind_eq_bind, Option.some_bind]
  exact smin_single_aux ε k hk

/-- C8: for every finite non-empty segment list with positive radii and
non-degenerate segments and every smoothness `k > 0`, the field at either
endpoint center of any segment is defined and `≤ 0`; and for a single
isolated sphere (one capsule with equal radii, probed on the spherical
cap side) the field at distance `r + ε` from the center is exactly
`ε > 0`. -/
theorem field_center_nonpos_and_outside_pos :
    (∀ (data : List ℝ) (k : ℝ), 0 < k →
      (∀ g ∈ chunk8 data,
        Vec3.dot (Vec3.sub ⟨g.cx, g.cy, g.cz⟩ ⟨g.px, g.py, g.pz⟩)
          (Vec3.sub ⟨g.cx, g.cy, g.cz⟩ ⟨g.px, g.py, g.pz⟩) ≠ 0) →
      (∀ g ∈ chunk8 data, 0 < g.pr ∧ 0 < g.cr) →
      ∀ g ∈ chunk8 data,
        (∃ v, calculateSD ⟨g.px, g.py, g.pz⟩ data k = some v ∧ v ≤ 0) ∧
        (∃ v, calculateSD ⟨g.cx, g.cy, g.cz⟩ data k = some v ∧ v ≤ 0)) ∧
    (∀ (a b : Vec3) (r k ε : ℝ), 0 < k → 0 ≤ r → 0 < ε →
      Vec3.dot (Vec3.sub b a) (Vec3.sub b a) ≠ 0 →
      ∀ p : Vec3, Vec3.dot (Vec3.sub p a) (Vec3.sub b a) ≤ 0 →
        Vec3.dot (Vec3.sub p a) (Vec3.sub p a) = (r + ε) ^ 2 →
        calculateSD p [a.x, a.y, a.z, r, b.x, b.y, b.z, r] k = some ε ∧
          0 < ε) := by
  constructor
  · intro data k hk hnd hrad g hg
    constructor
    · exact calculateSD_some_nonpos (ne_of_gt hk)
        (fun g' hg' => sdCapsule_isSome _ _ _ _ _ (hnd g' hg')) hg
        (sdCapsule_at_left _ _ _ _ (hnd g hg)) (neg_lt_zero.2 (hrad g hg).1)
    · exact calculateSD_some_nonpos (ne_of_gt hk)
        (fun g' hg' => sdCapsule_isSome _ _ _ _ _ (hnd g' hg')) hg
        (sdCapsule_at_right _ _ _ _ (hnd g hg)) (neg_lt_zero.2 (hrad g hg).2)
  · intro a b r k ε hk hr hε hnd p hside hdist
    exact ⟨calculateSD_outside_pos a b r k ε (ne_of_gt hk) hr hε hnd p hside hdist,
      hε⟩

/-- C8 witness: the theorem applied to the two-sphere segment
`[0,0,0,1, 3,0,0,1]` with `k = 4` at both endpoint centers, and to the
single capsule from `(0,0,0)` to `(1,0,0)` with radius 1 at the point
`(-3/2, 0, 0)`, at distance `1 + 1/2` from the center. -/
theorem field_center_witness :
    ((∃ v, calculateSD ⟨0, 0, 0⟩ [0, 0, 0, 1, 3, 0, 0, 1] 4 = some v ∧ v ≤ 0) ∧
     (∃ v, calculateSD ⟨3, 0, 0⟩ [0, 0, 0, 1, 3, 0, 0, 1] 4 = some v ∧ v ≤ 0)) ∧
    (calculateSD ⟨-(3 / 2), 0, 0⟩ [0, 0, 0, 1, 1, 0, 0, 1] 1 = some (1 / 2) ∧
      (0 : ℝ) < 1 / 2) := by
  constructor
  · refine field_center_nonpos_and_outside_pos.1 [0, 0, 0, 1, 3, 0, 0, 1] 4
      (by norm_num) ?_ ?_ ⟨0, 0, 0, 1, 3, 0, 0, 1⟩ ?_
    · intro g hg
      simp only [chunk8, List.mem_singleton] at hg
      subst hg
      norm_num [Vec3.sub, Vec3.dot]
    · intro g hg
      simp only [chunk8, List.mem_singleton] at hg
      subst hg
      norm_num
    · simp [chunk8]
  · have h2 := field_center_nonpos_and_outside_pos.2 ⟨0, 0, 0⟩ ⟨1, 0, 0⟩ 1 1 (1 / 2)
      (by norm_num) (by norm_num) (by norm_num)
      (by norm_num [Vec3.sub, Vec3.dot]) ⟨-(3 / 2), 0, 0⟩
      (by norm_num [Vec3.sub, Vec3.dot])
      (by norm_num [Vec3.sub, Vec3.dot])
    simpa using h2

/- ### Claim C7: the grid sampler -/

lemma ceil_nonpos_of {r : ℝ} (h : r ≤ 0) : ⌈r⌉ ≤ 0 :=
  Int.ceil_le.2 (by exact_mod_cast h)

lemma gridAxis_nil {a b s : ℝ} (hs : 0 < s) (h : b ≤ a) : gridAxis a b s = [] := by
  rw [gridAxis]
  have h1 : ⌈(b - a) / s⌉ ≤ 0 :=
    ceil_nonpos_of (div_nonpos_iff.2 (Or.inr ⟨by linarith, le_of_lt hs⟩))
  have h2 : (⌈(b - a) / s⌉).toNat = 0 := by omega
  rw [h2]
  rfl

lemma gridAxis_cons {a b s : ℝ} (hs : 0 < s) (h : a < b) :
    gridAxis a b s = a :: gridAxis (a + s) b s := by
  rw [gridAxis, gridAxis]
  have hstep : (b - (a + s)) / s = (b - a) / s - 1 := by
    field_simp
    ring
  have hc1 : ⌈(b - (a + s)) / s⌉ = ⌈(b - a) / s⌉ - 1 := by
    rw [hstep]
    exact_mod_cast Int.ceil_sub_int ((b - a) / s) 1
  have hpos : 0 < ⌈(b - a) / s⌉ := Int.ceil_pos.2 (div_pos (by linarith) hs)
  have htn : (⌈(b - a) / s⌉).toNat = (⌈(b - (a + s)) / s⌉).toNat + 1 := by
    rw [hc1]
    omega
  rw [htn, List.range_succ_eq_map, List.map_cons, List.map_map]
  congr 1
  · simp
  · apply List.map_congr_left
    intro i hi
    simp only [Function.comp_apply]
    push_cast
    ring

lemma frange_eq_gridAxis (stop step : ℝ) (h : 0 < step) :
    ∀ (n : ℕ) (start : ℝ), (⌈(stop - start) / step⌉).toNat = n →
      frange start stop step h = gridAxis start stop step := by
  intro n
  induction n with
  | zero =>
    intro start hn
    have hle : stop ≤ start := by
      by_contra hcon
      push_neg at hcon
      have : 0 < ⌈(stop - start) / step⌉ :=
        Int.ceil_pos.2 (div_pos (by linarith) h)
      omega
    rw [frange, dif_neg (not_lt.2 hle), gridAxis_nil h hle]
  | succ n ih =>
    intro start hn
    have hlt : start < stop := by
      by_contra hcon
      push_neg at hcon
      have : ⌈(stop - start) / step⌉ ≤ 0 :=
        ceil_nonpos_of (div_nonpos_iff.2 (Or.inr ⟨by linarith, le_of_lt h⟩))
      omega
    have hstep : (stop - (start + step)) / step = (stop - start) / step - 1 := by
      field_simp
      ring
    have hc1 : (⌈(stop - (start + step)) / step⌉).toNat = n := by
      rw [hstep]
      have : ⌈(stop - start) / step - 1⌉ = ⌈(stop - start) / step⌉ - 1 := by
        exact_mod_cast Int.ceil_sub_int ((stop - start) / step) 1
      rw [this]
      omega
    rw [frange, dif_pos hlt, ih (start + step) hc1, gridAxis_cons h hlt]

lemma frange_eq (start stop step : ℝ) (h : 0 < step) :
    frange start stop step h = gridAxis start stop step :=
  frange_eq_gridAxis stop step h _ start rfl

lemma gridAxis_mem {a b s : ℝ} (hs : 0 < s) (r : ℝ) :
    r ∈ gridAxis a b s ↔ ∃ i : ℕ, r = a + i * s ∧ r < b := by
  rw [gridAxis]
  simp only [List.mem_map, List.mem_range]
  constructor
  · rintro ⟨i, hi, rfl⟩
    refine ⟨i, rfl, ?_⟩
    have h1 : (i : ℤ) < ⌈(b - a) / s⌉ := Int.lt_toNat.1 hi
    have h2 : (i : ℝ) < (b - a) / s := by exact_mod_cast Int.lt_ceil.1 h1
    have h3 := (lt_div_iff hs).1 h2
    linarith
  · rintro ⟨i, rfl, hlt⟩
    refine ⟨i, ?_, rfl⟩
    have h2 : (i : ℝ) < (b - a) / s := (lt_div_iff hs).2 (by linarith)
    have h1 : (i : ℤ) < ⌈(b - a) / s⌉ := Int.lt_ceil.2 (by exact_mod_cast h2)
    exact Int.lt_toNat.2 h1

lemma sampleZ_eq (data : List ℝ) (k x y : ℝ) :
    ∀ zs : List ℝ,
      (∀ z ∈ zs, (calculateSD ⟨x, y, z⟩ data k).isSome = true) →
      sampleZ data k x y zs =
        some ((zs.map fun z => (⟨x, y, z⟩ : Vec3)).filter (isInside data k)) := by
  intro zs
  induction zs with
  | nil => exact fun _ => rfl
  | cons z t ih =>
    intro h
    obtain ⟨v, hv⟩ := Option.isSome_iff_exists.1 (h z (List.mem_cons_self z t))
    rw [sampleZ, hv, ih fun w hw => h w (List.mem_cons_of_mem z hw)]
    have hins : isInside data k ⟨x, y, z⟩ = decide (v < 0) := by
      rw [isInside, hv]
    simp only [List.map_cons, List.filter_cons, hins, Option.bind_eq_bind,
      Option.some_bind]
    by_cases hneg : v < 0
    · simp [hneg]
    · simp [hneg]

lemma sampleY_eq (data : List ℝ) (k x : ℝ) (zs : List ℝ) :
    ∀ ys : List ℝ,
      (∀ y ∈ ys, ∀ z ∈ zs, (calculateSD ⟨x, y, z⟩ data k).isSome = true) →
      sampleY data k x zs ys =
        some (((ys.flatMap fun y => zs.map fun z => (⟨x, y, z⟩ : Vec3))).filter
          (isInside data k)) := by
  intro ys
  induction ys with
  | nil => exact fun _ => rfl
  | cons y t ih =>
    intro h
    rw [sampleY, sampleZ_eq data k x y zs (h y (List.mem_cons_self y t)),
      ih fun w hw => h w (List.mem_cons_of_mem y hw)]
    simp [List.filter_append]

lemma sampleX_eq (data : List ℝ) (k : ℝ) (ys zs : List ℝ) :
    ∀ xs : List ℝ,
      (∀ x ∈ xs, ∀ y ∈ ys, ∀ z ∈ zs,
        (calculateSD ⟨x, y, z⟩ data k).isSome = true) →
      sampleX data k ys zs xs =
        some (((xs.flatMap fun x => ys.flatMap fun y =>
          zs.map fun z => (⟨x, y, z⟩ : Vec3))).filter (isInside data k)) := by
  intro xs
  induction xs with
  | nil => exact fun _ => rfl
  | cons x t ih =>
    intro h
    rw [sampleX, sampleY_eq data k x zs _ (h x (List.mem_cons_self x t)),
      ih fun w hw => h w (List.mem_cons_of_mem x hw)]
    simp [List.filter_append]

/-- C7: for every box, `voxelSize > 0` and smoothness `k > 0`, whenever
the field is defined on the grid (no degenerate segment aborts the scan),
`sampleSD` returns exactly the grid points with a strictly negative field
value, in traversal order (x outermost, then y, then z innermost, the
order of `gridSpec`); and the grid consists precisely of the points
`min + (i, j, l) * voxelSize` whose coordinates are strictly below the
corresponding max component (half-open ranges). -/
theorem sampleSD_grid (data : List ℝ) (s k : ℝ) (mn mx : Vec3) (hs : 0 < s)
    (hk : 0 < k)
    (hdef : ∀ p ∈ gridSpec mn mx s, (calculateSD p data k).isSome = true) :
    sampleSD data s k (mn, mx) hs =
      some ((gridSpec mn mx s).filter (isInside data k)) ∧
    ∀ p : Vec3, p ∈ gridSpec mn mx s ↔
      ∃ i j l : ℕ,
        p = ⟨mn.x + i * s, mn.y + j * s, mn.z + l * s⟩ ∧
        p.x < mx.x ∧ p.y < mx.y ∧ p.z < mx.z := by
  constructor
  · rw [sampleSD]
    simp only [frange_eq _ _ _ hs]
    rw [sampleX_eq data k _ _ _ ?hdef]
    case hdef =>
      intro x hx y hy z hz
      refine hdef ⟨x, y, z⟩ ?_
      rw [gridSpec]
      exact List.mem_flatMap.2 ⟨x, hx,
        List.mem_flatMap.2 ⟨y, hy, List.mem_map.2 ⟨z, hz, rfl⟩⟩⟩
    rw [gridSpec]
  · intro p
    rw [gridSpec]
    simp only [List.mem_flatMap, List.mem_map]
    constructor
    · rintro ⟨x, hx, y, hy, z, hz, rfl⟩
      obtain ⟨i, hxi, hxlt⟩ := (gridAxis_mem hs x).1 hx
      obtain ⟨j, hyj, hylt⟩ := (gridAxis_mem hs y).1 hy
      obtain ⟨l, hzl, hzlt⟩ := (gridAxis_mem hs z).1 hz
      exact ⟨i, j, l, by rw [← hxi, ← hyj, ← hzl], hxlt, hylt, hzlt⟩
    · rintro ⟨i, j, l, rfl, hxlt, hylt, hzlt⟩
      exact ⟨mn.x + i * s, (gridAxis_mem hs _).2 ⟨i, rfl, hxlt⟩,
        mn.y + j * s, (gridAxis_mem hs _).2 ⟨j, rfl, hylt⟩,
        mn.z + l * s, (gridAxis_mem hs _).2 ⟨l, rfl, hzlt⟩, rfl⟩

lemma calculateSD_single_isSome (p a : Vec3) (r1 : ℝ) (b : Vec3) (r2 k : ℝ)
    (hk : k ≠ 0) (hnd : Vec3.dot (Vec3.sub b a) (Vec3.sub b a) ≠ 0) :
    (calculateSD p [a.x, a.y, a.z, r1, b.x, b.y, b.z, r2] k).isSome = true := by
  obtain ⟨v, hv⟩ := Option.isSome_iff_exists.1 (sdCapsule_isSome p a r1 b r2 hnd)
  have hv' : sdCapsule p ⟨a.x, a.y, a.z⟩ r1 ⟨b.x, b.y, b.z⟩ r2 = some v := hv
  have hchunk : chunk8 [a.x, a.y, a.z, r1, b.x, b.y, b.z, r2] =
      [⟨a.x, a.y, a.z, r1, b.x, b.y, b.z, r2⟩] := rfl
  rw [calculateSD, hchunk, List.mapM_cons, hv']
  simp only [List.mapM_nil, Option.pure_def, Option.bind_eq_bind, Option.some_bind]
  rw [smin_single_aux v k hk]
  rfl

/-- C7 witness: the theorem applied to the two-sphere segment with
`voxelSize = 1`, `k = 4` and the box from `(0,0,0)` to `(1,1,1)`. -/
theorem sampleSD_grid_witness :
    sampleSD [0, 0, 0, 1, 3, 0, 0, 1] 1 4 (⟨0, 0, 0⟩, ⟨1, 1, 1⟩) one_pos =
      some ((gridSpec ⟨0, 0, 0⟩ ⟨1, 1, 1⟩ 1).filter
        (isInside [0, 0, 0, 1, 3, 0, 0, 1] 4)) ∧
    ∀ p : Vec3, p ∈ gridSpec ⟨0, 0, 0⟩ ⟨1, 1, 1⟩ 1 ↔
      ∃ i j l : ℕ,
        p = ⟨0 + i * 1, 0 + j * 1, 0 + l * 1⟩ ∧
        p.x < 1 ∧ p.y < 1 ∧ p.z < 1 := by
  have hall : ∀ p ∈ gridSpec ⟨0, 0, 0⟩ ⟨1, 1, 1⟩ 1,
      (calculateSD p [0, 0, 0, 1, 3, 0, 0, 1] 4).isSome = true := by
    intro p _
    exact calculateSD_single_isSome p ⟨0, 0, 0⟩ 1 ⟨3, 0, 0⟩ 1 4 (by norm_num)
      (by norm_num [Vec3.sub, Vec3.dot])
  exact sampleSD_grid [0, 0, 0, 1, 3, 0, 0, 1] 1 4 ⟨0, 0, 0⟩ ⟨1, 1, 1⟩ one_pos
    (by norm_num) hall

end PointCloudExport
